import Mathlib

/-!
Verification of the detection-web pipeline of `rust_web/python/detection_webs.py`.

The diagram data model is a shallow embedding of the pyzx graph structure as
used by the source: a vertex list (in creation order), a fresh-index counter
(pyzx allocates vertex identifiers by an increasing counter), a type map
(`ty v = 0` boundary, `1`/`2` the two non-boundary colors), rational
coordinates, an edge list of ordered pairs standing for undirected edges,
and the designated `inputs`/`outputs` sequences.

Fallible numpy/dict operations (negative array dimensions, `KeyError` on a
dict lookup, `np.hstack` of an empty list, networkx nodelist validation)
are modelled by `Option`: `none` is the Python exception.
-/

set_option autoImplicit false

structure Diagram where
  vertices : List Nat
  fresh : Nat
  ty : Nat → Nat
  row : Nat → Rat
  qubit : Nat → Rat
  edges : List (Nat × Nat)
  inputs : List Nat
  outputs : List Nat

/-- Well-formedness of a pyzx-style diagram: every allocated vertex
identifier is below the fresh counter and every edge joins allocated
vertices.  Both invariants are maintained by pyzx's `add_vertex`/`add_edge`. -/
def Diagram.WF (g : Diagram) : Prop :=
  (∀ v ∈ g.vertices, v < g.fresh) ∧ (∀ e ∈ g.edges, e.1 ∈ g.vertices ∧ e.2 ∈ g.vertices)

instance (g : Diagram) : Decidable g.WF := by
  unfold Diagram.WF; infer_instance

/-- `g.neighbors v` of pyzx: the other endpoints of the edges at `v`. -/
def neighbors (g : Diagram) (v : Nat) : List Nat :=
  g.edges.filterMap (fun e =>
    if e.1 = v then some e.2 else if e.2 = v then some e.1 else none)

/-- There is an (undirected) edge between `a` and `b`. -/
def EdgeBetween (g : Diagram) (a b : Nat) : Prop :=
  (a, b) ∈ g.edges ∨ (b, a) ∈ g.edges

instance (g : Diagram) (a b : Nat) : Decidable (EdgeBetween g a b) := by
  unfold EdgeBetween; infer_instance

/-- One subdivision step of `make_rg` (lines 74-79 of the source):
`oldg.remove_edge((neighbor, node))`, then `new_vertex = oldg.add_vertex(ty=(nodecolor%2)+1,
qubit=..., row=...)` at the midpoint, then `oldg.add_edge((node, new_vertex))` and
`oldg.add_edge((new_vertex, neighbor))`.  `remove_edge` deletes the undirected
edge, i.e. both orientations. -/
def subdivide (g : Diagram) (node nbr : Nat) : Diagram where
  vertices := g.vertices ++ [g.fresh]
  fresh := g.fresh + 1
  ty := fun x => if x = g.fresh then g.ty node % 2 + 1 else g.ty x
  row := fun x => if x = g.fresh then (g.row node + g.row nbr) / 2 else g.row x
  qubit := fun x => if x = g.fresh then (g.qubit node + g.qubit nbr) / 2 else g.qubit x
  edges := (g.edges.filter (fun e => decide (¬ (e = (node, nbr) ∨ e = (nbr, node)))))
            ++ [(node, g.fresh), (g.fresh, nbr)]
  inputs := g.inputs
  outputs := g.outputs

/-- The inner loop of `make_rg`: `for neighbor in g.neighbors(node)` ranges over
the neighbor list captured when the loop starts (the clone `g` is never mutated,
only reassigned), and each same-typed neighbor triggers a subdivision on the
live graph. -/
def processNeighbors (node c : Nat) : List Nat → Diagram → Diagram
  | [], g => g
  | n :: rest, g =>
    if g.ty n = c then processNeighbors node c rest (subdivide g node n)
    else processNeighbors node c rest g

/-- The outer loop of `make_rg`: `for node in g.vertices()` ranges over the
vertex list of the first clone, i.e. the original vertices; `nodecolor` and the
neighbor snapshot are read from the current state of the graph. -/
def makeRgAux : List Nat → Diagram → Diagram
  | [], g => g
  | v :: rest, g => makeRgAux rest (processNeighbors v (g.ty v) (neighbors g v) g)

/-- `make_rg` (lines 62-81 of the source). -/
def make_rg (g : Diagram) : Diagram :=
  makeRgAux g.vertices g

/-- The ordered vertex sequence of `ordered_nodes` (lines 9-18 of the source):
`original = list(g.vertices())`; `outputs` (so named in the source) is the
vertices in neither `g.inputs()` nor `g.outputs()`; the result is `outputs`
followed by the typed (`ty != 0`) vertices not already in `outputs`. -/
def orderedList (g : Diagram) : List Nat :=
  let original := g.vertices
  let outs0 := original.filter (fun v => decide (v ∉ g.inputs ∧ v ∉ g.outputs))
  outs0 ++ original.filter (fun v => decide (g.ty v ≠ 0 ∧ v ∉ outs0))

/-- The dictionary `{vertices.index(item): item for item in original if item in vertices}`
built by `ordered_nodes`, as an association list in Python iteration order. -/
def index_map_list (g : Diagram) : List (Nat × Nat) :=
  (g.vertices.filter (fun item => decide (item ∈ orderedList g))).map
    (fun item => ((orderedList g).indexOf item, item))

/-- `ordered_nodes` returns the ordered sequence together with the index map. -/
def ordered_nodes (g : Diagram) : List Nat × List (Nat × Nat) :=
  (orderedList g, index_map_list g)

/-- Dictionary access `index_map[i]` for a natural-number key. -/
def index_map (g : Diagram) (i : Nat) : Option Nat :=
  (index_map_list g).lookup i

/-- Indices of the nonzero entries of a kernel vector, ascending
(`np.nonzero(v)[0]`). -/
def nonzeroIndices (v : List Nat) : List Nat :=
  (List.range v.length).filter (fun i => decide (v.getD i 0 ≠ 0))

/-- The edges of the diagram containing a given vertex
(`for edge in g.edges(): if index_map[i-outs] in edge`). -/
def incidentEdges (g : Diagram) (vtx : Nat) : List (Nat × Nat) :=
  g.edges.filter (fun e => decide (e.1 = vtx ∨ e.2 = vtx))

/-- The accumulation loop of `get_pw` (lines 45-53 of the source), collecting
`red_edges` (label Z, firing vertex of type 2) and `green_edges` (label X,
firing vertex of type 1).  The lookup `index_map[i - outs]` is a Python dict
access: for `i < outs` the key `i - outs` is a negative integer, absent from
the dict (whose keys are the nonnegative positions), so a `KeyError` is raised;
likewise when `i - outs` is not a key.  Both are modelled by `none`. -/
def pwAccum (g : Diagram) (im : List (Nat × Nat)) (outs : Nat) :
    List Nat → List (Nat × Nat) × List (Nat × Nat) →
    Option (List (Nat × Nat) × List (Nat × Nat))
  | [], acc => some acc
  | i :: rest, acc =>
    if i < outs then none
    else
      match im.lookup (i - outs) with
      | none => none
      | some vtx =>
        if g.ty vtx = 1 then pwAccum g im outs rest (acc.1, acc.2 ++ incidentEdges g vtx)
        else if g.ty vtx = 2 then pwAccum g im outs rest (acc.1 ++ incidentEdges g vtx, acc.2)
        else pwAccum g im outs rest acc

/-- `get_pw(index_map, v, g)` (lines 20-60 of the source), returning the pair
(`red_edges`, `green_edges`) accumulated over the nonzero indices of `v`,
with `outs = len(g.inputs()) + len(g.outputs())`. -/
def get_pw (im : List (Nat × Nat)) (v : List Nat) (g : Diagram) :
    Option (List (Nat × Nat) × List (Nat × Nat)) :=
  pwAccum g im (g.inputs.length + g.outputs.length) (nonzeroIndices v) ([], [])

inductive Pauli where
  | OperatorZ
  | OperatorX
deriving DecidableEq

/-- Modelled from the spec: a Pauli Web is "a mapping from a subset of the
diagram's edges to a label in {OperatorZ, OperatorX}" (the `PauliWeb` class
itself lives in the external pyzx library and is not part of this repository).
`get_pw` adds every `red_edges` member with label Z and then every
`green_edges` member with label X, a later addition overwriting an earlier
one for the same edge. -/
def webOf (red green : List (Nat × Nat)) (e : Nat × Nat) : Option Pauli :=
  if e ∈ green then some Pauli.OperatorX
  else if e ∈ red then some Pauli.OperatorZ
  else none

/-- The endpoints of the edges of `g`: the node set of `nx.Graph(g.edges())`. -/
def edgeVerts (g : Diagram) : List Nat :=
  g.edges.map Prod.fst ++ g.edges.map Prod.snd

/-- Adjacency test used for `nx.to_numpy_array`. -/
def hasEdge (g : Diagram) (u w : Nat) : Prop :=
  (u, w) ∈ g.edges ∨ (w, u) ∈ g.edges

instance (g : Diagram) (u w : Nat) : Decidable (hasEdge g u w) := by
  unfold hasEdge; infer_instance

/-- Row `i` of `np.hstack((mdl, N))`: the `outs`-wide boundary block (identity
on the first `outs` rows, zero below) followed by the adjacency row of the
`i`-th ordered vertex. -/
def mdRow (g : Diagram) (ord : List Nat) (outs i : Nat) : List Nat :=
  (List.range outs).map (fun j => if i = j then 1 else 0)
    ++ ord.map (fun w => if hasEdge g (ord.getD i 0) w then 1 else 0)

/-- The rows of `md = Mat2(np.hstack((mdl, N)))`. -/
def mdRows (g : Diagram) (ord : List Nat) (outs : Nat) : List (List Nat) :=
  (List.range ord.length).map (mdRow g ord outs)

/-- The rows of `no_output = np.hstack((np.eye(2*outs), np.zeros((2*outs, (outs+k)-2*outs))))`. -/
def noOutputRows (k outs : Nat) : List (List Nat) :=
  (List.range (2 * outs)).map (fun r =>
    (List.range (outs + k)).map (fun j => if j = r then 1 else 0))

/-- The matrix-construction section of `get_detection_webs` (lines 92-103 of
the source).  `nx.to_numpy_array(ng, nodelist=new_order)` raises unless the
nodelist is duplicate-free and contained in the node set of
`ng = nx.Graph(g.edges())`; `np.zeros((N.shape[1]-outs, outs))` (and the zero
block of `no_output`) raise `ValueError: negative dimensions are not allowed`
when `k = len(new_order) < outs`.  These failures are `none`. -/
def build_parity_matrix (g : Diagram) : Option (List (List Nat)) :=
  let ord := orderedList g
  let outs := g.inputs.length + g.outputs.length
  if ord.Nodup ∧ (∀ v ∈ ord, v ∈ edgeVerts g) ∧ outs ≤ ord.length then
    some (mdRows g ord outs ++ noOutputRows ord.length outs)
  else none

/-- XOR of two GF(2) rows. -/
def xorRow (r s : List Nat) : List Nat :=
  List.zipWith (fun a b => (a + b) % 2) r s

/-- Entry of a row at a column, zero off the end. -/
def getCol (r : List Nat) (j : Nat) : Nat :=
  r.getD j 0

/-- Extract the first row with a 1 in column `j`, with the other rows. -/
def splitPivot (j : Nat) : List (List Nat) → Option (List Nat × List (List Nat))
  | [] => none
  | r :: rs =>
    if getCol r j = 1 then some (r, rs)
    else
      match splitPivot j rs with
      | none => none
      | some (p, rest) => some (p, r :: rest)

/-- Gauss-Jordan elimination over GF(2), column by column: `pivots` holds the
already-reduced pivot rows keyed by their pivot column. -/
def elimCols : List Nat → List (Nat × List Nat) × List (List Nat) →
    List (Nat × List Nat) × List (List Nat)
  | [], st => st
  | j :: js, (pivots, rows) =>
    match splitPivot j rows with
    | none => elimCols js (pivots, rows)
    | some (p, rest) =>
      let pivots2 := (pivots.map (fun q => if getCol q.2 j = 1 then (q.1, xorRow q.2 p) else q))
                      ++ [(j, p)]
      let rest2 := rest.map (fun r => if getCol r j = 1 then xorRow r p else r)
      elimCols js (pivots2, rest2)

/-- Nullspace basis vector for the free column `f`. -/
def nsVec (pivots : List (Nat × List Nat)) (ncols f : Nat) : List Nat :=
  (List.range ncols).map (fun i =>
    if i = f then 1
    else
      match pivots.find? (fun q => q.1 == i) with
      | some q => getCol q.2 f
      | none => 0)

/-- Modelled from the spec: the GF(2) linear-algebra collaborator
(`f2linalg`'s `Mat2.nullspace`, external to this repository), whose required
contract is "row reduction (Gaussian elimination over GF(2)) and
nullspace-basis extraction (a maximal set of linearly independent vectors `v`
such that `M·v = 0`)".  One basis vector is produced per free column of the
row-reduced matrix. -/
def nullspaceF2 (M : List (List Nat)) (ncols : Nat) : List (List Nat) :=
  let st := elimCols (List.range ncols) ([], M)
  let pcols := st.1.map Prod.fst
  ((List.range ncols).filter (fun f => decide (f ∉ pcols))).map
    (fun f => nsVec st.1 ncols f)

/-- `get_detection_webs` (lines 83-111 of the source): normalize in place,
order the vertices, build the augmented matrix, take the nullspace, and build
one web per basis vector.  `np.hstack([...])` over an empty nullspace raises
`ValueError: need at least one array to concatenate`, modelled by `none`. -/
def get_detection_webs (g0 : Diagram) :
    Option (List (List (Nat × Nat) × List (Nat × Nat))) :=
  let g := make_rg g0
  let im := index_map_list g
  match build_parity_matrix g with
  | none => none
  | some M =>
    let basis := nullspaceF2 M (g.inputs.length + g.outputs.length + (orderedList g).length)
    if basis.isEmpty then none
    else basis.mapM (fun v => get_pw im v g)

/-- Type map backed by an association list, for concrete test diagrams. -/
def tyOf (l : List (Nat × Nat)) : Nat → Nat :=
  fun v => ((l.lookup v).getD 0)

/-- A diagram with one same-colored (green/green) adjacent pair. -/
def gPair : Diagram where
  vertices := [0, 1]
  fresh := 2
  ty := tyOf [(0, 1), (1, 1)]
  row := fun _ => 0
  qubit := fun _ => 0
  edges := [(0, 1)]
  inputs := []
  outputs := []


/-- The minimal scenario diagram of the spec: boundary input `0`, boundary
output `1`, one typed (ColorA, `ty = 1`) vertex `2` connected to both. -/
def gMinimal : Diagram where
  vertices := [0, 1, 2]
  fresh := 3
  ty := tyOf [(2, 1)]
  row := fun _ => 0
  qubit := fun _ => 0
  edges := [(0, 2), (2, 1)]
  inputs := [0]
  outputs := [1]


/-- A boundaryless diagram whose augmented matrix is invertible over GF(2):
two typed vertices of different colors joined by one edge. -/
def gInvert : Diagram where
  vertices := [0, 1]
  fresh := 2
  ty := tyOf [(0, 1), (1, 2)]
  row := fun _ => 0
  qubit := fun _ => 0
  edges := [(0, 1)]
  inputs := []
  outputs := []


/-- A diagram satisfying the RG invariant of the claim (no same-colored
adjacent non-boundary pair) whose only edge joins its two boundary vertices:
the input wire `0` is connected directly to the output wire `1`. -/
def gWire : Diagram where
  vertices := [0, 1]
  fresh := 2
  ty := tyOf []
  row := fun _ => 0
  qubit := fun _ => 0
  edges := [(0, 1)]
  inputs := [0]
  outputs := [1]

/-- A diagram with no two adjacent vertices of equal type at all. -/
def gChain : Diagram where
  vertices := [0, 1, 2]
  fresh := 3
  ty := tyOf [(1, 1), (2, 2)]
  row := fun _ => 0
  qubit := fun _ => 0
  edges := [(0, 1), (1, 2)]
  inputs := [0]
  outputs := []

/-- The two nested `for` loops of `make_rg` as an explicit small-step machine:
`outer` is the unprocessed remainder of the vertex snapshot taken before any
mutation, `inner` the unprocessed remainder of the neighbor snapshot taken
when the current inner loop started (`cur`/`curTy` the current node and its
captured color), and `graph` the live (mutated) graph.  Each subdivision
touches only `graph`, never a list being iterated. -/
structure RgState where
  graph : Diagram
  outer : List Nat
  inner : List Nat
  cur : Nat
  curTy : Nat

/-- One iteration of `make_rg`'s loops; `none` when both loops are exhausted. -/
def rgStep (s : RgState) : Option RgState :=
  match s.inner with
  | n :: rest =>
    if s.graph.ty n = s.curTy then
      some (RgState.mk (subdivide s.graph s.cur n) s.outer rest s.cur s.curTy)
    else
      some (RgState.mk s.graph s.outer rest s.cur s.curTy)
  | [] =>
    match s.outer with
    | [] => none
    | v :: vs => some (RgState.mk s.graph vs (neighbors s.graph v) v (s.graph.ty v))

/-- Run the machine for (at most) `n` steps. -/
def rgRun : Nat → RgState → RgState
  | 0, s => s
  | n + 1, s =>
    match rgStep s with
    | none => s
    | some t => rgRun n t

/-- The machine state at entry of `make_rg`: the outer snapshot holds every
vertex of the input graph and no inner loop is active. -/
def rgInit (g : Diagram) : RgState :=
  RgState.mk g g.vertices [] 0 0

/-- A diagram for exercising `get_pw` on a legitimate index. -/
def gOneOut : Diagram where
  vertices := [0, 1]
  fresh := 2
  ty := tyOf [(0, 2)]
  row := fun _ => 0
  qubit := fun _ => 0
  edges := [(0, 1)]
  inputs := []
  outputs := [1]

/-- A diagram with one input: `outs = 1`. -/
def gOneIn : Diagram where
  vertices := [0, 1]
  fresh := 2
  ty := tyOf [(1, 2)]
  row := fun _ => 0
  qubit := fun _ => 0
  edges := [(0, 1)]
  inputs := [0]
  outputs := []

/-- A second one-input diagram, for the C8 witness. -/
def gOneIn2 : Diagram where
  vertices := [0, 1]
  fresh := 2
  ty := tyOf [(1, 1)]
  row := fun _ => 0
  qubit := fun _ => 0
  edges := [(0, 1)]
  inputs := [0]
  outputs := []

/-- The RG-form chain `input - green - red - output`: `n = 4`, `b = 2`,
`k = 2`. -/
def gChain4 : Diagram where
  vertices := [0, 1, 2, 3]
  fresh := 4
  ty := tyOf [(1, 1), (2, 2)]
  row := fun _ => 0
  qubit := fun _ => 0
  edges := [(0, 1), (1, 2), (2, 3)]
  inputs := [0]
  outputs := [3]

/-- A second `b = 0` diagram, for the C7 witness. -/
def gLoop4 : Diagram where
  vertices := [0, 1, 2, 3]
  fresh := 4
  ty := tyOf [(0, 1), (1, 2), (2, 1), (3, 2)]
  row := fun _ => 0
  qubit := fun _ => 0
  edges := [(0, 1), (1, 2), (2, 3), (3, 0)]
  inputs := []
  outputs := []

/-! ### Lemmas about `subdivide` and `neighbors` -/

theorem subdivide_fresh (g : Diagram) (a b : Nat) :
    (subdivide g a b).fresh = g.fresh + 1 := rfl

theorem subdivide_ty_of_lt (g : Diagram) (a b : Nat) {x : Nat} (h : x < g.fresh) :
    (subdivide g a b).ty x = g.ty x := by
  simp only [subdivide]
  rw [if_neg]
  omega

theorem subdivide_ty_fresh (g : Diagram) (a b : Nat) :
    (subdivide g a b).ty g.fresh = g.ty a % 2 + 1 := by
  simp [subdivide]

theorem subdivide_mem_vertices (g : Diagram) (a b : Nat) {x : Nat}
    (h : x ∈ g.vertices) : x ∈ (subdivide g a b).vertices := by
  simp [subdivide, h]

theorem subdivide_mem_edges {g : Diagram} {a b : Nat} {e : Nat × Nat} :
    e ∈ (subdivide g a b).edges ↔
      (e ∈ g.edges ∧ ¬ (e = (a, b) ∨ e = (b, a))) ∨ e = (a, g.fresh) ∨ e = (g.fresh, b) := by
  simp [subdivide, List.mem_filter, or_assoc]

theorem mod_two_succ_ne (c : Nat) : c % 2 + 1 ≠ c := by
  omega

theorem mem_neighbors {g : Diagram} {v x : Nat} :
    x ∈ neighbors g v ↔ (v, x) ∈ g.edges ∨ (x, v) ∈ g.edges := by
  unfold neighbors
  rw [List.mem_filterMap]
  constructor
  · rintro ⟨e, he, hfe⟩
    by_cases h1 : e.1 = v
    · rw [if_pos h1] at hfe
      left
      have : e = (v, x) := by
        cases e
        simp_all
      rwa [this] at he
    · rw [if_neg h1] at hfe
      by_cases h2 : e.2 = v
      · rw [if_pos h2] at hfe
        right
        have : e = (x, v) := by
          cases e
          simp_all
        rwa [this] at he
      · rw [if_neg h2] at hfe
        exact absurd hfe (by simp)
  · rintro (h | h)
    · exact ⟨(v, x), h, by simp⟩
    · refine ⟨(x, v), h, ?_⟩
      by_cases hxv : x = v
      · subst hxv
        simp
      · simp [hxv]

theorem subdivide_WF {g : Diagram} {a b : Nat} (hg : g.WF)
    (ha : a ∈ g.vertices) (hb : b ∈ g.vertices) : (subdivide g a b).WF := by
  obtain ⟨hv, he⟩ := hg
  constructor
  · intro v hvmem
    rw [subdivide_fresh]
    simp only [subdivide, List.mem_append, List.mem_singleton] at hvmem
    rcases hvmem with h | h
    · have := hv v h
      omega
    · omega
  · intro e hemem
    rw [subdivide_mem_edges] at hemem
    rcases hemem with ⟨hold, _⟩ | rfl | rfl
    · obtain ⟨h1, h2⟩ := he e hold
      exact ⟨subdivide_mem_vertices g a b h1, subdivide_mem_vertices g a b h2⟩
    · exact ⟨subdivide_mem_vertices g a b ha, by simp [subdivide]⟩
    · exact ⟨by simp [subdivide], subdivide_mem_vertices g a b hb⟩

/-! ### The inner loop of `make_rg` -/

/-- Combined invariant for the inner loop: processing the neighbor snapshot
`ns` of `node` (whose color is `c`) preserves well-formedness, the identity of
all pre-existing vertices, introduces no new same-typed edge, and, provided
`ns` covered every same-typed neighbor, leaves `node` with no same-typed
neighbor. -/
theorem processNeighbors_spec (node c : Nat) :
    ∀ (ns : List Nat) (g : Diagram), g.WF → node ∈ g.vertices →
      (∀ x ∈ ns, x ∈ g.vertices) → c = g.ty node →
      (∀ y, EdgeBetween g node y → g.ty y = c → y ∈ ns) →
      (processNeighbors node c ns g).WF ∧
      g.fresh ≤ (processNeighbors node c ns g).fresh ∧
      (∀ x, x < g.fresh → (processNeighbors node c ns g).ty x = g.ty x) ∧
      (∀ x ∈ g.vertices, x ∈ (processNeighbors node c ns g).vertices) ∧
      (∀ e ∈ (processNeighbors node c ns g).edges,
        (processNeighbors node c ns g).ty e.1 = (processNeighbors node c ns g).ty e.2 →
        e ∈ g.edges ∧ g.ty e.1 = g.ty e.2) ∧
      (∀ x, EdgeBetween (processNeighbors node c ns g) node x →
        (processNeighbors node c ns g).ty x ≠ c) := by
  intro ns
  induction ns with
  | nil =>
    intro g hg hnode _ hc hcover
    refine ⟨hg, le_rfl, fun x _ => rfl, fun x hx => hx, fun e he hbad => ⟨he, hbad⟩, ?_⟩
    intro x hx hty
    exact absurd (hcover x hx hty) (List.not_mem_nil x)
  | cons n rest ih =>
    intro g hg hnode hns hc hcover
    have hnodeLt : node < g.fresh := hg.1 node hnode
    have hnmem : n ∈ g.vertices := hns n (List.mem_cons_self n rest)
    by_cases hn : g.ty n = c
    · -- subdivision branch
      have hstep : processNeighbors node c (n :: rest) g
          = processNeighbors node c rest (subdivide g node n) := by
        simp [processNeighbors, hn]
      set g1 := subdivide g node n with hg1
      have hg1WF : g1.WF := subdivide_WF hg hnode hnmem
      have hfresh1 : g1.fresh = g.fresh + 1 := rfl
      have htyPres : ∀ x, x < g.fresh → g1.ty x = g.ty x := by
        intro x hx
        exact subdivide_ty_of_lt g node n hx
      have htyNode1 : g1.ty node = g.ty node := htyPres node hnodeLt
      have htyFresh : g1.ty g.fresh = c % 2 + 1 := by
        rw [hg1, subdivide_ty_fresh, ← hc]
      have hcover1 : ∀ y, EdgeBetween g1 node y → g1.ty y = c → y ∈ rest := by
        intro y hEy hty
        have hyFresh : y ≠ g.fresh := by
          intro hy
          rw [hy, htyFresh] at hty
          exact mod_two_succ_ne c hty
        rcases hEy with hmem | hmem
        all_goals rw [hg1, subdivide_mem_edges] at hmem
        · rcases hmem with ⟨hold, hne⟩ | hnew | hnew
          · -- an old edge (node, y), different from the removed one
            have hyv : y ∈ g.vertices := (hg.2 _ hold).2
            have hyLt : y < g.fresh := hg.1 y hyv
            have hgy : g.ty y = c := by rw [← htyPres y hyLt]; exact hty
            have hyn : y ≠ n := by
              intro hyn
              exact hne (Or.inl (by rw [hyn]))
            have := hcover y (Or.inl hold) hgy
            cases List.mem_cons.mp this with
            | inl h => exact absurd h hyn
            | inr h => exact h
          · -- e = (node, fresh): y = fresh, excluded
            have : y = g.fresh := congrArg Prod.snd hnew
            exact absurd this hyFresh
          · -- e = (fresh, n): node = fresh, impossible
            have : node = g.fresh := congrArg Prod.fst hnew
            omega
        · rcases hmem with ⟨hold, hne⟩ | hnew | hnew
          · have hyv : y ∈ g.vertices := (hg.2 _ hold).1
            have hyLt : y < g.fresh := hg.1 y hyv
            have hgy : g.ty y = c := by rw [← htyPres y hyLt]; exact hty
            have hyn : y ≠ n := by
              intro hyn
              exact hne (Or.inr (by rw [hyn]))
            have := hcover y (Or.inr hold) hgy
            cases List.mem_cons.mp this with
            | inl h => exact absurd h hyn
            | inr h => exact h
          · -- (y, node) = (node, fresh): node = fresh, impossible
            have : node = g.fresh := congrArg Prod.snd hnew
            omega
          · -- (y, node) = (fresh, n): y = fresh, excluded
            have : y = g.fresh := congrArg Prod.fst hnew
            exact absurd this hyFresh
      have hrest1 : ∀ x ∈ rest, x ∈ g1.vertices := by
        intro x hx
        exact subdivide_mem_vertices g node n (hns x (List.mem_cons_of_mem n hx))
      have hc1 : c = g1.ty node := by rw [htyNode1, ← hc]
      obtain ⟨iWF, iFresh, iTy, iVert, iBad, iClear⟩ :=
        ih g1 hg1WF (subdivide_mem_vertices g node n hnode) hrest1 hc1 hcover1
      rw [hstep]
      refine ⟨iWF, ?_, ?_, ?_, ?_, iClear⟩
      · calc g.fresh ≤ g1.fresh := by rw [hfresh1]; omega
          _ ≤ _ := iFresh
      · intro x hx
        have hx1 : x < g1.fresh := by rw [hfresh1]; omega
        rw [iTy x hx1, htyPres x hx]
      · intro x hx
        exact iVert x (subdivide_mem_vertices g node n hx)
      · intro e he hbad
        obtain ⟨he1, hbad1⟩ := iBad e he hbad
        rw [hg1, subdivide_mem_edges] at he1
        rcases he1 with ⟨hold, _⟩ | hnew | hnew
        · have h1 : e.1 ∈ g.vertices := (hg.2 _ hold).1
          have h2 : e.2 ∈ g.vertices := (hg.2 _ hold).2
          have hl1 : e.1 < g.fresh := hg.1 _ h1
          have hl2 : e.2 < g.fresh := hg.1 _ h2
          refine ⟨hold, ?_⟩
          rw [← htyPres _ hl1, ← htyPres _ hl2]
          exact hbad1
        · -- e = (node, fresh) is not same-typed in g1
          exfalso
          have h1 : e.1 = node := congrArg Prod.fst hnew
          have h2 : e.2 = g.fresh := congrArg Prod.snd hnew
          rw [h1, h2, htyNode1, ← hc, htyFresh] at hbad1
          exact mod_two_succ_ne c hbad1.symm
        · -- e = (fresh, n) is not same-typed in g1
          exfalso
          have h1 : e.1 = g.fresh := congrArg Prod.fst hnew
          have h2 : e.2 = n := congrArg Prod.snd hnew
          have hnLt : n < g.fresh := hg.1 n hnmem
          rw [h1, h2, htyFresh, htyPres n hnLt, hn] at hbad1
          exact mod_two_succ_ne c hbad1
    · -- skip branch
      have hstep : processNeighbors node c (n :: rest) g
          = processNeighbors node c rest g := by
        simp [processNeighbors, hn]
      have hcover' : ∀ y, EdgeBetween g node y → g.ty y = c → y ∈ rest := by
        intro y hEy hty
        have := hcover y hEy hty
        cases List.mem_cons.mp this with
        | inl h => exact absurd (h ▸ hty) hn
        | inr h => exact h
      have hrest : ∀ x ∈ rest, x ∈ g.vertices := fun x hx =>
        hns x (List.mem_cons_of_mem n hx)
      rw [hstep]
      exact ih g hg hnode hrest hc hcover'

/-! ### The outer loop of `make_rg` -/

/-- After the outer loop has run over `vs`, provided every same-typed edge had
an endpoint still in `vs`, no same-typed edge is left at all. -/
theorem makeRgAux_spec :
    ∀ (vs : List Nat) (g : Diagram), g.WF →
      (∀ v ∈ vs, v ∈ g.vertices) →
      (∀ e ∈ g.edges, g.ty e.1 = g.ty e.2 → e.1 ∈ vs ∨ e.2 ∈ vs) →
      (makeRgAux vs g).WF ∧
      (∀ e ∈ (makeRgAux vs g).edges,
        (makeRgAux vs g).ty e.1 ≠ (makeRgAux vs g).ty e.2) := by
  intro vs
  induction vs with
  | nil =>
    intro g hg _ hcover
    refine ⟨hg, ?_⟩
    intro e he hbad
    rcases hcover e he hbad with h | h
    · exact List.not_mem_nil _ h
    · exact List.not_mem_nil _ h
  | cons v rest ih =>
    intro g hg hvs hcover
    have hv : v ∈ g.vertices := hvs v (List.mem_cons_self v rest)
    have hvLt : v < g.fresh := hg.1 v hv
    have hnbrs : ∀ x ∈ neighbors g v, x ∈ g.vertices := by
      intro x hx
      rcases mem_neighbors.mp hx with h | h
      · exact (hg.2 _ h).2
      · exact (hg.2 _ h).1
    have hcov : ∀ y, EdgeBetween g v y → g.ty y = g.ty v → y ∈ neighbors g v := by
      intro y hE _
      exact mem_neighbors.mpr hE
    obtain ⟨sWF, _, sTy, sVert, sBad, sClear⟩ :=
      processNeighbors_spec v (g.ty v) (neighbors g v) g hg hv hnbrs rfl hcov
    set g1 := processNeighbors v (g.ty v) (neighbors g v) g with hg1
    have hstep : makeRgAux (v :: rest) g = makeRgAux rest g1 := rfl
    have hrest1 : ∀ x ∈ rest, x ∈ g1.vertices := fun x hx =>
      sVert x (hvs x (List.mem_cons_of_mem v hx))
    have hcover1 : ∀ e ∈ g1.edges, g1.ty e.1 = g1.ty e.2 → e.1 ∈ rest ∨ e.2 ∈ rest := by
      intro e he hbad
      obtain ⟨heg, hbadg⟩ := sBad e he hbad
      have h1v : e.1 ∈ g.vertices := (hg.2 _ heg).1
      have h2v : e.2 ∈ g.vertices := (hg.2 _ heg).2
      have htyv : g1.ty v = g.ty v := sTy v hvLt
      rcases hcover e heg hbadg with h | h
      · cases List.mem_cons.mp h with
        | inl h1 =>
          -- e.1 = v: contradicts the clearing property of the inner loop
          exfalso
          have hEdge : EdgeBetween g1 v e.2 := by
            left
            have : e = (v, e.2) := by
              cases e
              simp_all
            rwa [this] at he
          have := sClear e.2 hEdge
          rw [← h1, ← hbad] at this
          rw [h1] at this
          exact this htyv
        | inr h1 => exact Or.inl h1
      · cases List.mem_cons.mp h with
        | inl h2 =>
          exfalso
          have hEdge : EdgeBetween g1 v e.1 := by
            right
            have : e = (e.1, v) := by
              cases e
              simp_all
            rwa [this] at he
          have := sClear e.1 hEdge
          rw [hbad, ← h2] at this
          rw [h2] at this
          exact this htyv
        | inr h2 => exact Or.inr h2
    rw [hstep]
    exact ih g1 sWF hrest1 hcover1

/-- The edges of `make_rg g` never join two vertices of the same type, boundary
included, for any well-formed input diagram. -/
theorem make_rg_all_edges_bichromatic (g : Diagram) (hg : g.WF) :
    ∀ e ∈ (make_rg g).edges, (make_rg g).ty e.1 ≠ (make_rg g).ty e.2 := by
  have hcover : ∀ e ∈ g.edges, g.ty e.1 = g.ty e.2 →
      e.1 ∈ g.vertices ∨ e.2 ∈ g.vertices := by
    intro e he _
    exact Or.inl (hg.2 e he).1
  exact (makeRgAux_spec g.vertices g hg (fun v hv => hv) hcover).2

/-- `make_rg` preserves well-formedness. -/
theorem make_rg_WF (g : Diagram) (hg : g.WF) : (make_rg g).WF := by
  have hcover : ∀ e ∈ g.edges, g.ty e.1 = g.ty e.2 →
      e.1 ∈ g.vertices ∨ e.2 ∈ g.vertices := by
    intro e he _
    exact Or.inl (hg.2 e he).1
  exact (makeRgAux_spec g.vertices g hg (fun v hv => hv) hcover).1

/-- C1: for every (well-formed) input diagram, after `make_rg` returns, no edge
of the resulting diagram connects two non-boundary vertices of equal color:
the RG-form invariant holds of the normalizer's output. -/
theorem make_rg_rg_form (g : Diagram) (hg : g.WF) :
    ∀ e ∈ (make_rg g).edges, (make_rg g).ty e.1 ≠ 0 → (make_rg g).ty e.2 ≠ 0 →
      (make_rg g).ty e.1 ≠ (make_rg g).ty e.2 := by
  intro e he _ _
  exact make_rg_all_edges_bichromatic g hg e he

theorem make_rg_rg_form_witness :
    gPair.WF ∧
      (∀ e ∈ (make_rg gPair).edges,
        (make_rg gPair).ty e.1 ≠ 0 → (make_rg gPair).ty e.2 ≠ 0 →
        (make_rg gPair).ty e.1 ≠ (make_rg gPair).ty e.2) :=
  ⟨by decide, make_rg_rg_form gPair (by decide)⟩

/-! ### No-op behavior of `make_rg` (C9) -/

theorem processNeighbors_noop (node c : Nat) :
    ∀ (ns : List Nat) (g : Diagram), (∀ n ∈ ns, g.ty n ≠ c) →
      processNeighbors node c ns g = g := by
  intro ns
  induction ns with
  | nil => intro g _; rfl
  | cons n rest ih =>
    intro g h
    have hn : g.ty n ≠ c := h n (List.mem_cons_self n rest)
    have hstep : processNeighbors node c (n :: rest) g
        = processNeighbors node c rest g := by
      simp [processNeighbors, hn]
    rw [hstep]
    exact ih g (fun x hx => h x (List.mem_cons_of_mem n hx))

theorem makeRgAux_noop :
    ∀ (vs : List Nat) (g : Diagram), (∀ e ∈ g.edges, g.ty e.1 ≠ g.ty e.2) →
      makeRgAux vs g = g := by
  intro vs
  induction vs with
  | nil => intro g _; rfl
  | cons v rest ih =>
    intro g h
    have hnbrs : ∀ n ∈ neighbors g v, g.ty n ≠ g.ty v := by
      intro n hn
      rcases mem_neighbors.mp hn with hmem | hmem
      · exact fun hc => (h _ hmem) (hc.symm)
      · exact h _ hmem
    have hstep : makeRgAux (v :: rest) g = makeRgAux rest (processNeighbors v (g.ty v) (neighbors g v) g) := rfl
    rw [hstep, processNeighbors_noop v (g.ty v) (neighbors g v) g hnbrs]
    exact ih g h

/-- C9 (amended): `make_rg` is a no-op exactly on diagrams in which no edge
joins two vertices of equal type, the boundary type `0` included; the RG
invariant (which only constrains non-boundary vertices) is not sufficient,
because `make_rg` also subdivides boundary-boundary edges. -/
theorem make_rg_noop_of_no_monochromatic_edge (g : Diagram)
    (h : ∀ e ∈ g.edges, g.ty e.1 ≠ g.ty e.2) : make_rg g = g :=
  makeRgAux_noop g.vertices g h

/-- C9 counterexample: `gWire` already satisfies the RG invariant (its only
edge joins two boundary vertices), yet `make_rg` subdivides that edge,
creating the new vertex `2` and two new edges — not a no-op. -/
theorem make_rg_not_noop_on_rg_invariant :
    (∀ e ∈ gWire.edges, gWire.ty e.1 ≠ 0 → gWire.ty e.2 ≠ 0 →
        gWire.ty e.1 ≠ gWire.ty e.2) ∧
      (make_rg gWire).vertices ≠ gWire.vertices ∧
      (make_rg gWire).edges ≠ gWire.edges := by
  refine ⟨by decide, by decide, by decide⟩

theorem make_rg_noop_witness :
    (∀ e ∈ gChain.edges, gChain.ty e.1 ≠ gChain.ty e.2) ∧ make_rg gChain = gChain :=
  ⟨by decide, make_rg_noop_of_no_monochromatic_edge gChain (by decide)⟩

/-! ### Termination of the `make_rg` loop (C10) -/

theorem rgRun_of_halted {s : RgState} (h : rgStep s = none) :
    ∀ n, rgRun n s = s := by
  intro n
  cases n with
  | zero => rfl
  | succ m => simp [rgRun, h]

theorem rgRun_add (m n : Nat) (s : RgState) :
    rgRun (m + n) s = rgRun n (rgRun m s) := by
  induction m generalizing s with
  | zero => rw [Nat.zero_add]; rfl
  | succ k ih =>
    cases hstep : rgStep s with
    | none =>
      simp [rgRun_of_halted hstep]
    | some t =>
      have h1 : rgRun (k + 1 + n) s = rgRun (k + n) t := by
        have : k + 1 + n = (k + n) + 1 := by omega
        rw [this]
        simp [rgRun, hstep]
      have h2 : rgRun (k + 1) s = rgRun k t := by
        simp [rgRun, hstep]
      rw [h1, h2, ih]

/-- The inner loop runs to completion in finitely many steps and computes
`processNeighbors`. -/
theorem rgRun_inner (node c : Nat) :
    ∀ (ns : List Nat) (g : Diagram) (outerL : List Nat), ∃ m,
      rgRun m (RgState.mk g outerL ns node c)
        = RgState.mk (processNeighbors node c ns g) outerL [] node c := by
  intro ns
  induction ns with
  | nil => intro g outerL; exact ⟨0, rfl⟩
  | cons n rest ih =>
    intro g outerL
    by_cases hn : g.ty n = c
    · obtain ⟨m, hm⟩ := ih (subdivide g node n) outerL
      refine ⟨m + 1, ?_⟩
      have hstep : rgStep (RgState.mk g outerL (n :: rest) node c)
          = some (RgState.mk (subdivide g node n) outerL rest node c) := by
        simp [rgStep, hn]
      have hrun : rgRun (m + 1) (RgState.mk g outerL (n :: rest) node c)
          = rgRun m (RgState.mk (subdivide g node n) outerL rest node c) := by
        have : m + 1 = 1 + m := by omega
        rw [this, rgRun_add]
        simp [rgRun, hstep]
      rw [hrun, hm]
      simp [processNeighbors, hn]
    · obtain ⟨m, hm⟩ := ih g outerL
      refine ⟨m + 1, ?_⟩
      have hstep : rgStep (RgState.mk g outerL (n :: rest) node c)
          = some (RgState.mk g outerL rest node c) := by
        simp [rgStep, hn]
      have hrun : rgRun (m + 1) (RgState.mk g outerL (n :: rest) node c)
          = rgRun m (RgState.mk g outerL rest node c) := by
        have : m + 1 = 1 + m := by omega
        rw [this, rgRun_add]
        simp [rgRun, hstep]
      rw [hrun, hm]
      simp [processNeighbors, hn]

/-- The whole machine runs to completion and computes `makeRgAux`. -/
theorem rgRun_outer :
    ∀ (vs : List Nat) (g : Diagram) (v0 c0 : Nat), ∃ m v1 c1,
      rgRun m (RgState.mk g vs [] v0 c0)
        = RgState.mk (makeRgAux vs g) [] [] v1 c1 := by
  intro vs
  induction vs with
  | nil => intro g v0 c0; exact ⟨0, v0, c0, rfl⟩
  | cons v rest ih =>
    intro g v0 c0
    have hstep : rgStep (RgState.mk g (v :: rest) [] v0 c0)
        = some (RgState.mk g rest (neighbors g v) v (g.ty v)) := rfl
    obtain ⟨m1, hm1⟩ := rgRun_inner v (g.ty v) (neighbors g v) g rest
    obtain ⟨m2, v1, c1, hm2⟩ := ih (processNeighbors v (g.ty v) (neighbors g v) g) v (g.ty v)
    refine ⟨1 + m1 + m2, v1, c1, ?_⟩
    rw [rgRun_add, rgRun_add]
    have h1 : rgRun 1 (RgState.mk g (v :: rest) [] v0 c0)
        = RgState.mk g rest (neighbors g v) v (g.ty v) := by
      simp [rgRun, hstep]
    rw [h1, hm1, hm2]
    rfl

/-! ### `ordered_nodes` (C5) -/

theorem mem_orderedList {g : Diagram} {v : Nat} :
    v ∈ orderedList g ↔
      v ∈ g.vertices ∧ ((v ∉ g.inputs ∧ v ∉ g.outputs) ∨ g.ty v ≠ 0) := by
  simp only [orderedList, List.mem_append, List.mem_filter, decide_eq_true_eq]
  constructor
  · rintro (⟨hv, h1, h2⟩ | ⟨hv, h1, _⟩)
    · exact ⟨hv, Or.inl ⟨h1, h2⟩⟩
    · exact ⟨hv, Or.inr h1⟩
  · rintro ⟨hv, h | hty⟩
    · exact Or.inl ⟨hv, h⟩
    · by_cases hio : v ∉ g.inputs ∧ v ∉ g.outputs
      · exact Or.inl ⟨hv, hio⟩
      · right
        exact ⟨hv, hty, fun hc => hio hc.2⟩

theorem orderedList_subset {g : Diagram} {v : Nat} (h : v ∈ orderedList g) :
    v ∈ g.vertices :=
  (mem_orderedList.mp h).1

theorem orderedList_nodup {g : Diagram} (h : g.vertices.Nodup) :
    (orderedList g).Nodup := by
  unfold orderedList
  refine List.Nodup.append (h.filter _) (h.filter _) ?_
  intro a ha hb
  rw [List.mem_filter, decide_eq_true_eq] at hb
  exact hb.2.2 ha

theorem lookup_of_keys (i x : Nat) :
    ∀ l : List (Nat × Nat), (∃ p ∈ l, p.1 = i) → (∀ p ∈ l, p.1 = i → p.2 = x) →
      l.lookup i = some x := by
  intro l
  induction l with
  | nil =>
    rintro ⟨p, hp, _⟩ _
    exact absurd hp (List.not_mem_nil p)
  | cons q rest ih =>
    rintro ⟨p, hp, hpi⟩ hall
    cases q with
    | mk k b =>
      by_cases hk : i = k
      · have hb : b = x := hall (k, b) (List.mem_cons_self _ _) hk.symm
        have hbeq : (i == k) = true := beq_iff_eq.mpr hk
        simp [List.lookup, hbeq, hb]
      · have hbeq : (i == k) = false := beq_eq_false_iff_ne.mpr hk
        have hred : List.lookup i ((k, b) :: rest) = List.lookup i rest := by
          simp [List.lookup, hbeq]
        rw [hred]
        refine ih ⟨p, ?_, hpi⟩ (fun p' hp' hi => hall p' (List.mem_cons_of_mem _ hp') hi)
        cases List.mem_cons.mp hp with
        | inl heq =>
          exfalso
          apply hk
          rw [← hpi, heq]
        | inr hmem => exact hmem

theorem mem_index_map_list {g : Diagram} {p : Nat × Nat} :
    p ∈ index_map_list g ↔
      p.2 ∈ g.vertices ∧ p.2 ∈ orderedList g ∧ p.1 = (orderedList g).indexOf p.2 := by
  unfold index_map_list
  rw [List.mem_map]
  constructor
  · rintro ⟨item, hitem, rfl⟩
    rw [List.mem_filter, decide_eq_true_eq] at hitem
    exact ⟨hitem.1, hitem.2, rfl⟩
  · rintro ⟨h1, h2, h3⟩
    refine ⟨p.2, ?_, ?_⟩
    · rw [List.mem_filter, decide_eq_true_eq]
      exact ⟨h1, h2⟩
    · rw [← h3]

theorem index_map_eq_get {g : Diagram} (h : g.vertices.Nodup) :
    ∀ i, i < (orderedList g).length → index_map g i = (orderedList g).get? i := by
  intro i hi
  have hL : (orderedList g).Nodup := orderedList_nodup h
  have hxMem : (orderedList g).get ⟨i, hi⟩ ∈ orderedList g := List.get_mem _ _ _
  have hxVert : (orderedList g).get ⟨i, hi⟩ ∈ g.vertices := orderedList_subset hxMem
  have hidx : (orderedList g).indexOf ((orderedList g).get ⟨i, hi⟩) = i := by
    have := List.indexOf_getElem hL i hi
    simpa [List.get_eq_getElem] using this
  rw [List.get?_eq_get hi]
  unfold index_map
  apply lookup_of_keys
  · exact ⟨((orderedList g).indexOf ((orderedList g).get ⟨i, hi⟩),
      (orderedList g).get ⟨i, hi⟩),
      mem_index_map_list.mpr ⟨hxVert, hxMem, rfl⟩, hidx⟩
  · intro p hp hpi
    obtain ⟨_, hpL, hpidx⟩ := mem_index_map_list.mp hp
    have hidx2 : (orderedList g).indexOf p.2 = i := by rw [← hpidx, hpi]
    have hlt : (orderedList g).indexOf p.2 < (orderedList g).length :=
      List.indexOf_lt_length.mpr hpL
    have hgot : (orderedList g).get ⟨(orderedList g).indexOf p.2, hlt⟩ = p.2 :=
      List.indexOf_get hlt
    have hfin : (⟨(orderedList g).indexOf p.2, hlt⟩ : Fin (orderedList g).length)
        = ⟨i, hi⟩ := Fin.ext hidx2
    rw [hfin] at hgot
    exact hgot.symm

/-- C5 (amended): the sequence returned by `ordered_nodes` lists exactly once
every vertex that is outside `inputs ∪ outputs` or has a non-boundary type —
boundary-typed input/output vertices are omitted — and the index map sends
every 0-based position of that sequence to the vertex there. -/
theorem ordered_nodes_spec (g : Diagram) (h : g.vertices.Nodup) :
    (orderedList g).Nodup ∧
    (∀ v, v ∈ orderedList g ↔
      v ∈ g.vertices ∧ ((v ∉ g.inputs ∧ v ∉ g.outputs) ∨ g.ty v ≠ 0)) ∧
    (∀ i, i < (orderedList g).length → index_map g i = (orderedList g).get? i) :=
  ⟨orderedList_nodup h, fun _ => mem_orderedList, index_map_eq_get h⟩

/-- C5 counterexample: in the minimal diagram, the boundary input vertex `0`
is a vertex of the diagram but does not appear in the ordered sequence, so
`ordered_nodes` does not list every vertex. -/
theorem ordered_nodes_misses_io_vertex :
    0 ∈ gMinimal.vertices ∧ 0 ∉ orderedList gMinimal := by
  decide

theorem ordered_nodes_spec_witness :
    gMinimal.vertices.Nodup ∧
      ((orderedList gMinimal).Nodup ∧
      (∀ v, v ∈ orderedList gMinimal ↔
        v ∈ gMinimal.vertices ∧
          ((v ∉ gMinimal.inputs ∧ v ∉ gMinimal.outputs) ∨ gMinimal.ty v ≠ 0)) ∧
      (∀ i, i < (orderedList gMinimal).length →
        index_map gMinimal i = (orderedList gMinimal).get? i)) :=
  ⟨by decide, ordered_nodes_spec gMinimal (by decide)⟩

/-! ### `get_pw` (C2, C8) -/

theorem incidentEdges_sub {g : Diagram} {vtx : Nat} {e : Nat × Nat}
    (h : e ∈ incidentEdges g vtx) : e ∈ g.edges :=
  (List.mem_filter.mp h).1

theorem pwAccum_edges_sub (g : Diagram) (im : List (Nat × Nat)) (outs : Nat) :
    ∀ (idxs : List Nat) (acc res : List (Nat × Nat) × List (Nat × Nat)),
      pwAccum g im outs idxs acc = some res →
      (∀ e, e ∈ acc.1 ∨ e ∈ acc.2 → e ∈ g.edges) →
      (∀ e, e ∈ res.1 ∨ e ∈ res.2 → e ∈ g.edges) := by
  intro idxs
  induction idxs with
  | nil =>
    intro acc res h hacc
    simp only [pwAccum, Option.some.injEq] at h
    rw [← h]
    exact hacc
  | cons i rest ih =>
    intro acc res h hacc
    simp only [pwAccum] at h
    by_cases hi : i < outs
    · rw [if_pos hi] at h
      exact absurd h (by simp)
    · rw [if_neg hi] at h
      split at h
      next =>
        exact absurd h (by simp)
      next vtx hlk =>
        by_cases h1 : g.ty vtx = 1
        · rw [if_pos h1] at h
          refine ih _ res h ?_
          intro e he
          rcases he with he | he
          · exact hacc e (Or.inl he)
          · rcases List.mem_append.mp he with h2 | h2
            · exact hacc e (Or.inr h2)
            · exact incidentEdges_sub h2
        · rw [if_neg h1] at h
          by_cases h2 : g.ty vtx = 2
          · rw [if_pos h2] at h
            refine ih _ res h ?_
            intro e he
            rcases he with he | he
            · rcases List.mem_append.mp he with h3 | h3
              · exact hacc e (Or.inl h3)
              · exact incidentEdges_sub h3
            · exact hacc e (Or.inr he)
          · rw [if_neg h2] at h
            exact ih _ res h hacc

/-- C2 (amended): whenever `get_pw` returns, every accumulated edge (under
either label) is an edge of the diagram, and the resulting web — the
edge-to-label mapping — assigns exactly one label to each labeled edge; when
an edge is accumulated under both labels (both endpoints fire, one of type 1
and one of type 2), the final label is OperatorX, the X pass overwriting the
earlier Z pass. -/
theorem get_pw_web_valid (g : Diagram) (im : List (Nat × Nat)) (v : List Nat)
    (red green : List (Nat × Nat)) (h : get_pw im v g = some (red, green)) :
    (∀ e, e ∈ red ∨ e ∈ green → e ∈ g.edges) ∧
    (∀ e, e ∈ red → e ∈ green → webOf red green e = some Pauli.OperatorX) := by
  constructor
  · refine pwAccum_edges_sub g im _ (nonzeroIndices v) ([], []) (red, green) h ?_
    intro e he
    rcases he with he | he
    · exact absurd he (List.not_mem_nil e)
    · exact absurd he (List.not_mem_nil e)
  · intro e _ hg
    simp [webOf, hg]

/-- C2 counterexample: on the RG-form diagram `gInvert` (a type-1 vertex
adjacent to a type-2 vertex), the kernel vector firing both endpoints puts
the edge `(0, 1)` into both `red_edges` and `green_edges`: the edge receives
the two different labels Z and X. -/
theorem get_pw_double_label :
    get_pw (index_map_list gInvert) [1, 1] gInvert = some ([(0, 1)], [(0, 1)]) ∧
      (0, 1) ∈ gInvert.edges := by
  refine ⟨by decide, by decide⟩

theorem get_pw_web_valid_witness :
    get_pw (index_map_list gOneOut) [0, 1] gOneOut = some ([(0, 1)], []) ∧
      ((∀ e, e ∈ [((0 : Nat), (1 : Nat))] ∨ e ∈ ([] : List (Nat × Nat)) → e ∈ gOneOut.edges) ∧
      (∀ e, e ∈ [((0 : Nat), (1 : Nat))] → e ∈ ([] : List (Nat × Nat)) →
        webOf [(0, 1)] [] e = some Pauli.OperatorX)) :=
  ⟨by decide, get_pw_web_valid gOneOut (index_map_list gOneOut) [0, 1] [(0, 1)] [] (by decide)⟩

theorem pwAccum_none_of_low (g : Diagram) (im : List (Nat × Nat)) (outs : Nat) :
    ∀ (idxs : List Nat) (acc : List (Nat × Nat) × List (Nat × Nat)),
      (∃ i ∈ idxs, i < outs) → pwAccum g im outs idxs acc = none := by
  intro idxs
  induction idxs with
  | nil =>
    rintro acc ⟨i, hi, _⟩
    exact absurd hi (List.not_mem_nil i)
  | cons j rest ih =>
    rintro acc ⟨i, hi, hlow⟩
    simp only [pwAccum]
    by_cases hj : j < outs
    · rw [if_pos hj]
    · rw [if_neg hj]
      have hrest : i ∈ rest := by
        cases List.mem_cons.mp hi with
        | inl h => exfalso; omega
        | inr h => exact h
      split
      next => rfl
      next vtx hlk =>
        by_cases h1 : g.ty vtx = 1
        · rw [if_pos h1]
          exact ih _ ⟨i, hrest, hlow⟩
        · rw [if_neg h1]
          by_cases h2 : g.ty vtx = 2
          · rw [if_pos h2]
            exact ih _ ⟨i, hrest, hlow⟩
          · rw [if_neg h2]
            exact ih _ ⟨i, hrest, hlow⟩

/-- C8 (amended): a nonzero index `i < outs` of the kernel vector is not
skipped: the dict access `index_map[i - outs]` is performed with the negative
key `i - outs`, which is absent, so `get_pw` raises a `KeyError` (modelled by
`none`).  In pipeline-produced kernel vectors the first `2*outs` coordinates
are forced to zero by the `no_output` rows, so this case does not arise
there. -/
theorem get_pw_raises_on_low_index (g : Diagram) (im : List (Nat × Nat))
    (v : List Nat)
    (h : ∃ i ∈ nonzeroIndices v, i < g.inputs.length + g.outputs.length) :
    get_pw im v g = none :=
  pwAccum_none_of_low g im _ (nonzeroIndices v) ([], []) h

/-- C8 counterexample: the kernel vector `[1]` has the nonzero index `0 < outs
= 1`; the claim says that index is skipped with no error, but `get_pw` fails
(the dict lookup at key `0 - 1 = -1` raises). -/
theorem get_pw_low_index_not_skipped :
    (0 ∈ nonzeroIndices [1] ∧ 0 < gOneIn.inputs.length + gOneIn.outputs.length) ∧
      get_pw (index_map_list gOneIn) [1] gOneIn = none := by
  refine ⟨by decide, by decide⟩

theorem get_pw_raises_on_low_index_witness :
    (∃ i ∈ nonzeroIndices [1, 1], i < gOneIn2.inputs.length + gOneIn2.outputs.length) ∧
      get_pw (index_map_list gOneIn2) [1, 1] gOneIn2 = none :=
  ⟨by decide, get_pw_raises_on_low_index gOneIn2 (index_map_list gOneIn2) [1, 1] (by decide)⟩

/-! ### Matrix dimensions (C4, C7) -/

theorem build_shape_aux {g : Diagram} {M : List (List Nat)}
    (h : build_parity_matrix g = some M) :
    M.length = (orderedList g).length + 2 * (g.inputs.length + g.outputs.length) ∧
      ∀ r ∈ M, r.length = g.inputs.length + g.outputs.length + (orderedList g).length := by
  simp only [build_parity_matrix] at h
  split at h
  case isTrue hcond =>
    injection h with h
    subst h
    constructor
    · simp [mdRows, noOutputRows]
    · intro r hr
      rcases List.mem_append.mp hr with h2 | h2
      · obtain ⟨i, _, rfl⟩ := List.mem_map.mp h2
        simp [mdRow]
      · obtain ⟨j, _, rfl⟩ := List.mem_map.mp h2
        simp
  case isFalse => exact absurd h (by simp)

/-- C4 (amended): whenever the Parity-Matrix Builder succeeds, the final
augmented matrix has `b + k` columns and `k + 2b` rows, where
`k = len(new_order)` is the length of the ordered vertex sequence (which
omits the `b` boundary input/output vertices) — not `b + n` columns and
`n + 2b` rows for `n` the diagram's vertex count as the claim states. -/
theorem build_parity_matrix_dims (g : Diagram) (M : List (List Nat))
    (h : build_parity_matrix g = some M) :
    M.length = (orderedList g).length + 2 * (g.inputs.length + g.outputs.length) ∧
      ∀ r ∈ M, r.length = g.inputs.length + g.outputs.length + (orderedList g).length :=
  build_shape_aux h

/-- C4 counterexample: on `gChain4` the builder succeeds and produces a 6-row,
4-column matrix, whereas the claim predicts `n + 2b = 8` rows and
`b + n = 6` columns. -/
theorem build_parity_matrix_dims_not_n :
    build_parity_matrix gChain4
        = some [[1, 0, 0, 1], [0, 1, 1, 0],
                [1, 0, 0, 0], [0, 1, 0, 0], [0, 0, 1, 0], [0, 0, 0, 1]] ∧
      ¬ (6 = gChain4.vertices.length + 2 * (gChain4.inputs.length + gChain4.outputs.length)) ∧
      ¬ (4 = gChain4.inputs.length + gChain4.outputs.length + gChain4.vertices.length) := by
  refine ⟨by decide, by decide, by decide⟩

theorem build_parity_matrix_dims_witness :
    build_parity_matrix gChain4
        = some [[1, 0, 0, 1], [0, 1, 1, 0],
                [1, 0, 0, 0], [0, 1, 0, 0], [0, 0, 1, 0], [0, 0, 0, 1]] ∧
      (([[1, 0, 0, 1], [0, 1, 1, 0],
         [1, 0, 0, 0], [0, 1, 0, 0], [0, 0, 1, 0], [0, 0, 0, 1]] :
            List (List Nat)).length
          = (orderedList gChain4).length
            + 2 * (gChain4.inputs.length + gChain4.outputs.length) ∧
        ∀ r ∈ ([[1, 0, 0, 1], [0, 1, 1, 0],
                [1, 0, 0, 0], [0, 1, 0, 0], [0, 0, 1, 0], [0, 0, 0, 1]] :
            List (List Nat)),
          r.length = gChain4.inputs.length + gChain4.outputs.length
            + (orderedList gChain4).length) :=
  ⟨by decide, build_parity_matrix_dims gChain4 _ (by decide)⟩

/-- C7 (amended): the Parity-Matrix Builder performs no validation of
`b = |inputs| + |outputs|`: on a diagram with `b = 0` (satisfying the
nodelist preconditions of the adjacency conversion) it does not reject but
constructs the matrix, whose boundary-forcing blocks have zero columns and
whose `no_output` block has zero rows — a `k × k` matrix. -/
theorem build_parity_matrix_accepts_b0 (g : Diagram)
    (hb : g.inputs.length + g.outputs.length = 0)
    (h1 : (orderedList g).Nodup)
    (h2 : ∀ v ∈ orderedList g, v ∈ edgeVerts g) :
    ∃ M, build_parity_matrix g = some M ∧ M.length = (orderedList g).length ∧
      ∀ r ∈ M, r.length = (orderedList g).length := by
  have hsome : build_parity_matrix g
      = some (mdRows g (orderedList g) (g.inputs.length + g.outputs.length)
          ++ noOutputRows (orderedList g).length (g.inputs.length + g.outputs.length)) := by
    unfold build_parity_matrix
    rw [if_pos ⟨h1, h2, by omega⟩]
  obtain ⟨hlen, hrows⟩ := build_shape_aux hsome
  refine ⟨_, hsome, ?_, ?_⟩
  · omega
  · intro r hr
    have := hrows r hr
    omega

/-- C7 counterexample: the diagram `gInvert` has `b = 0`, yet the builder does
not reject it: it constructs a matrix (with zero-column boundary blocks)
instead of failing before matrix construction. -/
theorem build_parity_matrix_no_b0_rejection :
    gInvert.inputs.length + gInvert.outputs.length = 0 ∧
      (build_parity_matrix gInvert).isSome = true := by
  refine ⟨by decide, by decide⟩

theorem build_parity_matrix_accepts_b0_witness :
    (gLoop4.inputs.length + gLoop4.outputs.length = 0 ∧
        (orderedList gLoop4).Nodup ∧ (∀ v ∈ orderedList gLoop4, v ∈ edgeVerts gLoop4)) ∧
      (∃ M, build_parity_matrix gLoop4 = some M ∧
        M.length = (orderedList gLoop4).length ∧
        ∀ r ∈ M, r.length = (orderedList gLoop4).length) :=
  ⟨⟨by decide, by decide, by decide⟩,
    build_parity_matrix_accepts_b0 gLoop4 (by decide) (by decide) (by decide)⟩

/-! ### Pipeline evaluations (C3, C6) -/

/-- C3: on the spec's minimal scenario diagram (`inputs = [0]`,
`outputs = [1]`, one ColorA vertex `2` connected to both), normalization does
leave exactly one typed vertex, but `get_detection_webs` does not produce the
two OperatorX-labeled edges: with `k = 1` ordered vertex and `outs = 2` the
zero block `np.zeros((N.shape[1]-outs, outs))` is requested with `-1` rows
and numpy raises `ValueError`, so the pipeline fails (modelled by `none`). -/
theorem get_detection_webs_minimal_crash :
    ((make_rg gMinimal).vertices.filter
        (fun v => decide ((make_rg gMinimal).ty v ≠ 0))).length = 1 ∧
      (orderedList (make_rg gMinimal)).length
          < (make_rg gMinimal).inputs.length + (make_rg gMinimal).outputs.length ∧
      get_detection_webs gMinimal = none := by
  refine ⟨by decide, by decide, by decide⟩

/-- C6: on `gInvert` the augmented matrix is `[[0,1],[1,0]]`, invertible over
GF(2), so the nullspace basis is empty; `get_detection_webs` then evaluates
`np.hstack([])`, which raises `ValueError: need at least one array to
concatenate` (modelled by `none`) instead of returning an empty list of
webs. -/
theorem get_detection_webs_empty_nullspace_crash :
    build_parity_matrix (make_rg gInvert) = some [[0, 1], [1, 0]] ∧
      nullspaceF2 [[0, 1], [1, 0]] 2 = [] ∧
      get_detection_webs gInvert = none := by
  refine ⟨by decide, by decide, by decide⟩

/-- C10: `make_rg` terminates on every finite input diagram without any
iteration cap.  The loop machine `rgStep`/`rgRun` — outer loop over the vertex
snapshot, inner loop over the neighbor snapshot captured at inner-loop entry,
subdivisions applied only to the live graph — reaches, after finitely many
steps, a state where no step remains, and the graph it then holds is exactly
`make_rg` of the input. -/
theorem make_rg_machine_halts (g : Diagram) :
    ∃ n, rgStep (rgRun n (rgInit g)) = none ∧ (rgRun n (rgInit g)).graph = make_rg g := by
  obtain ⟨m, v1, c1, hm⟩ := rgRun_outer g.vertices g 0 0
  refine ⟨m, ?_, ?_⟩
  · rw [rgInit, hm]
    rfl
  · rw [rgInit, hm]
    rfl
